import Mathlib

/-
  Verification development for the NPM-SECURITY-SCANNER-PRO browser extension
  (files content.js, background.js). The JavaScript string pipeline of
  PackageNameExtractor, the scanner's package record, the risk assessment,
  the exposed-file probe and the rate limiter are shallowly embedded below.
  Strings are modelled by Lean's String (a list of characters); JavaScript
  character classes and regular expressions are translated to executable
  Boolean predicates over characters, keeping the source's semantics.
-/

set_option maxRecDepth 10000

namespace NpmScan

/- ## Character classes (numeric codepoint tests; the comment names the character) -/

/-- JavaScript whitespace as used by String.prototype.trim and the regex class
backslash-s: space, tab, LF, VT, FF, CR, NBSP, BOM, and the line/paragraph
separators U+2028/U+2029 (the rarer exotic Unicode spaces are omitted; no
input in this development contains them). -/
def jsWs (c : Char) : Bool :=
  c.toNat = 32 || c.toNat = 9 || c.toNat = 10 || c.toNat = 11 || c.toNat = 12 ||
  c.toNat = 13 || c.toNat = 160 || c.toNat = 0xfeff || c.toNat = 0x2028 || c.toNat = 0x2029

/-- Line terminators, which the regex dot does not match: LF, CR, U+2028, U+2029. -/
def isLineTermC (c : Char) : Bool :=
  c.toNat = 10 || c.toNat = 13 || c.toNat = 0x2028 || c.toNat = 0x2029

/-- Lowercase ASCII letter a-z (codepoints 97-122). -/
def lowerAlphaC (c : Char) : Bool := 97 ≤ c.toNat && c.toNat ≤ 122

/-- Uppercase ASCII letter A-Z (codepoints 65-90). -/
def upperAlphaC (c : Char) : Bool := 65 ≤ c.toNat && c.toNat ≤ 90

/-- ASCII letter. -/
def alphaC (c : Char) : Bool := lowerAlphaC c || upperAlphaC c

/-- ASCII digit 0-9 (codepoints 48-57). -/
def digitC (c : Char) : Bool := 48 ≤ c.toNat && c.toNat ≤ 57

/-- ASCII lowercasing, as String.prototype.toLowerCase acts on ASCII. -/
def lowerC (c : Char) : Char :=
  if 65 ≤ c.toNat ∧ c.toNat ≤ 90 then Char.ofNat (c.toNat + 32) else c

/- ## List-of-characters string primitives -/

def lowerL (l : List Char) : List Char := l.map lowerC

def trimL (l : List Char) : List Char :=
  ((l.dropWhile jsWs).reverse.dropWhile jsWs).reverse

/-- Does the second list contain the first as a contiguous sub-list
(JavaScript String.prototype.includes)? -/
def containsL (pat : List Char) : List Char → Bool
  | [] => pat.isEmpty
  | c :: rest => pat.isPrefixOf (c :: rest) || containsL pat rest

def startsL (pre l : List Char) : Bool := pre.isPrefixOf l

/-- Split a character list at every character satisfying the predicate
(JavaScript String.prototype.split keeps empty segments). -/
def splitP (p : Char → Bool) : List Char → List (List Char)
  | [] => [[]]
  | c :: rest =>
    if p c then [] :: splitP p rest
    else
      match splitP p rest with
      | [] => [[c]]
      | s :: ss => (c :: s) :: ss

def splitC (sep : Char) (l : List Char) : List (List Char) :=
  splitP (fun c => c = sep) l

/- ## String-level wrappers -/

def trimS (s : String) : String := ⟨trimL s.data⟩

def toLowerS (s : String) : String := ⟨lowerL s.data⟩

def containsS (s pat : String) : Bool := containsL pat.data s.data

def startsS (s pre : String) : Bool := startsL pre.data s.data

def endsS (s suf : String) : Bool := suf.data.reverse.isPrefixOf s.data.reverse

def splitS (s : String) (sep : Char) : List String :=
  (splitC sep s.data).map (fun l => (⟨l⟩ : String))

/-- JavaScript s.slice(0, n): the first n characters. -/
def jsSliceTo (s : String) (n : Nat) : String := ⟨s.data.take n⟩

/- ## Configuration constants of content.js (CONFIG) -/

/-- CONFIG.NODE_BUILTINS from content.js. -/
def NODE_BUILTINS : List String :=
  ["assert", "buffer", "child_process", "cluster", "crypto", "dgram", "dns",
   "domain", "events", "fs", "http", "https", "net", "os", "path", "punycode",
   "querystring", "readline", "repl", "stream", "string_decoder", "timers",
   "tls", "tty", "url", "util", "v8", "vm", "zlib", "constants", "module",
   "process", "console", "http2", "perf_hooks", "trace_events", "worker_threads",
   "require", "exports"]

/-- CONFIG.INTERNAL_ALIAS_ROOTS from content.js. -/
def INTERNAL_ALIAS_ROOTS : List String :=
  ["src", "app", "apps", "components", "component", "pages", "layouts", "views",
   "hooks", "utils", "lib", "libs", "services", "service", "store", "stores",
   "state", "modules", "assets", "styles", "css", "scss", "sass", "less",
   "images", "img", "fonts", "locales", "i18n", "types", "constants",
   "config", "configs", "public"]

/- ## PackageNameExtractor -/

/-- PackageNameExtractor.stripQueryAndHash: value.split('#')[0].split('?')[0]. -/
def stripQueryAndHash (value : String) : String :=
  ⟨(value.data.takeWhile (fun c => c ≠ '#')).takeWhile (fun c => c ≠ '?')⟩

/-- The regex test for a Windows drive path, slash-caret [a-z]:[backslash slash]
with the i flag (content.js line 217). -/
def drivePathB (s : String) : Bool :=
  match s.data with
  | a :: b :: c :: _ => alphaC a && b = ':' && (c = '\\' || c = '/')
  | _ => false

/-- PackageNameExtractor.isAliasPath (content.js lines 210-232), including the
loop over CONFIG.INTERNAL_ALIAS_PREFIXES and the internal alias-root check on
the first path segment. -/
def isAliasPath (importPath : String) : Bool :=
  if importPath = "" then false
  else
    let normalized := trimS importPath
    let lower := toLowerS normalized
    if startsS normalized "/" && !startsS normalized "//" then true
    else if drivePathB normalized || startsS normalized "\\\\" then true
    else if startsS lower "@/" || startsS lower "~/" || startsS lower "~~/" then true
    else if lower = "~" || startsS lower "~/" then true
    else
      let parts := splitS normalized '/'
      if 1 < parts.length then
        decide (toLowerS parts.headI ∈ INTERNAL_ALIAS_ROOTS)
      else false

/-- The canonical name grammar on a simple (scope-free) segment:
caret [a-z0-9-~][a-z0-9-._~]* dollar. -/
def nameChar1 (c : Char) : Bool :=
  lowerAlphaC c || digitC c || c.toNat = 45 || c.toNat = 126

def nameCharR (c : Char) : Bool :=
  nameChar1 c || c.toNat = 46 || c.toNat = 95

def simpleNameL : List Char → Bool
  | [] => false
  | c :: rest => nameChar1 c && rest.all nameCharR

/-- The canonical package-name grammar of content.js line 251:
an optional at-scope segment followed by a simple name. -/
def validNameL (l : List Char) : Bool :=
  match l with
  | [] => false
  | c :: rest =>
    if c = '@' then
      match splitC '/' rest with
      | [scope, nm] => simpleNameL scope && simpleNameL nm
      | _ => false
    else simpleNameL (c :: rest)

def validName (s : String) : Bool := validNameL s.data

/-- PackageNameExtractor.normalizePackageName (content.js lines 234-254).
The argument is an Option because the caller may pass null. The scoped branch
models the regex caret (at [^/]+) slash (.+) dollar: scope up to the first
slash, the rest is the name, which must be non-empty and free of line
terminators (the regex dot does not match those); then the name is cut at its
first at-sign (split('@')[0]). -/
def normalizePackageNameS (p : String) : Option String :=
  if p = "" then none
  else
    let normalized? : Option String :=
      if startsS p "@" then
        let rest := p.data.tail
        let scope := rest.takeWhile (fun c => c ≠ '/')
        match rest.dropWhile (fun c => c ≠ '/') with
        | [] => none
        | _ :: nm =>
          if scope.isEmpty || nm.isEmpty || nm.any isLineTermC then none
          else some ⟨'@' :: scope ++ '/' :: nm.takeWhile (fun c => c ≠ '@')⟩
      else if containsL ['@'] p.data then some ⟨p.data.takeWhile (fun c => c ≠ '@')⟩
      else some p
    match normalized? with
    | none => none
    | some normalized =>
      if normalized ∈ NODE_BUILTINS then none
      else if !validNameL normalized.data then none
      else some normalized

def normalizePackageName : Option String → Option String
  | none => none
  | some p => normalizePackageNameS p

/- ## URL parsing model for the CDN branch of extract

The source calls new URL(cleaned, 'https://example.com') inside try/catch.
The model below covers the shapes that branch distinguishes:
absolute http(s) URLs and protocol-relative URLs expose their (lowercased)
authority host and their path segments; strings with any other scheme parse
with an empty host; everything else is a relative reference, which resolves
against the base and therefore always has host example.com (its path is
irrelevant because example.com never passes the CDN host test). A missing
authority after http(s) is a parse failure (the URL constructor throws),
modelled as none, which extract catches by falling through to its standard
cleaning step. -/

structure UrlView where
  host : String
  pathParts : List String
deriving DecidableEq, Repr

def schemeCharB (c : Char) : Bool :=
  alphaC c || digitC c || c.toNat = 43 || c.toNat = 45 || c.toNat = 46

def schemeSplitAux (acc : List Char) : List Char → Option (List Char × List Char)
  | [] => none
  | c :: rest =>
    if c = ':' then some (acc.reverse, rest)
    else if schemeCharB c then schemeSplitAux (c :: acc) rest
    else none

/-- Split a leading URI scheme (letter, then letters/digits/plus/minus/dot,
then a colon) from a string, if present. -/
def schemeSplit (l : List Char) : Option (List Char × List Char) :=
  match l with
  | [] => none
  | c :: rest => if alphaC c then schemeSplitAux [c] rest else none

def isSlashC (c : Char) : Bool := c = '/' || c = '\\'

/-- Extract the hostname from an authority component: drop userinfo (up to the
last at-sign), drop the port (after the first colon), lowercase. -/
def hostOfAuthority (auth : List Char) : List Char :=
  let afterUser :=
    if auth.contains '@' then (auth.reverse.takeWhile (fun c => c ≠ '@')).reverse
    else auth
  lowerL (afterUser.takeWhile (fun c => c ≠ ':'))

/-- Path segments as url.pathname.split('/').filter(p non-empty); special
schemes normalize backslashes to slashes. -/
def pathSegs (l : List Char) : List String :=
  ((splitC '/' (l.map (fun c => if c = '\\' then '/' else c))).map
      (fun seg => (⟨seg⟩ : String))).filter (fun s => s ≠ "")

def tryParseUrl (cleaned : String) : Option UrlView :=
  let l := cleaned.data
  if startsL ['/', '/'] l then
    let rest := l.drop 2
    let auth := rest.takeWhile (fun c => !isSlashC c)
    if auth.isEmpty then none
    else some ⟨⟨hostOfAuthority auth⟩, pathSegs (rest.dropWhile (fun c => !isSlashC c))⟩
  else
    match schemeSplit l with
    | some (sch, rest) =>
      let schL := lowerL sch
      if schL = ['h', 't', 't', 'p'] || schL = ['h', 't', 't', 'p', 's'] then
        let rest2 := rest.dropWhile isSlashC
        let auth := rest2.takeWhile (fun c => !isSlashC c)
        if auth.isEmpty then none
        else some ⟨⟨hostOfAuthority auth⟩, pathSegs (rest2.dropWhile (fun c => !isSlashC c))⟩
      else some ⟨"", []⟩
    | none => some ⟨"example.com", []⟩

/-- The hostname test of the CDN branch (content.js line 271). -/
def isCdnHost (host : String) : Bool :=
  containsS host "unpkg.com" || containsS host "jsdelivr.net" ||
  containsS host "cdnjs.cloudflare.com"

/-- The body of the CDN extraction after the jsdelivr npm-segment shift has
been applied to pathParts. -/
def cdnPick (host : String) (pathParts : List String) : Option String :=
  if containsS host "cdnjs.cloudflare.com" && pathParts.headI = "ajax" &&
      (pathParts.drop 1).headI = "libs" then
    normalizePackageName (pathParts.get? 2)
  else if pathParts.isEmpty then none
  else
    normalizePackageName (some
      (if startsS pathParts.headI "@" && 1 < pathParts.length then
        pathParts.headI ++ "/" ++ (pathParts.drop 1).headI
      else pathParts.headI))

/-- The CDN package extraction of content.js lines 276-296: drop a leading npm
segment on jsdelivr, take the third segment on the cdnjs ajax/libs layout,
otherwise the first segment (first two for a scoped name). -/
def cdnExtract (u : UrlView) : Option String :=
  cdnPick u.host
    (if containsS u.host "jsdelivr.net" && u.pathParts.headI = "npm" then u.pathParts.tail
     else u.pathParts)

/-- The regex caret (https?:)? slash slash (content.js line 300), which guards
the "absolute web URL but not a known CDN" rejection. -/
def regexProtoSlashes (l : List Char) : Bool :=
  startsL ['/', '/'] l || startsL "http://".data l || startsL "https://".data l

/-- The first replace of content.js line 310: strip one leading protocol
marker http://, https://, node: or file:. -/
def stripProto (l : List Char) : List Char :=
  if startsL "https://".data l then l.drop 8
  else if startsL "http://".data l then l.drop 7
  else if startsL "node:".data l then l.drop 5
  else if startsL "file:".data l then l.drop 5
  else l

/-- Drop leading repetitions of dot-dot-slash. -/
def afterDots (l : List Char) : List Char :=
  match l with
  | [] => []
  | c :: rest =>
    if c = '.' then
      match rest with
      | d :: e :: rest2 =>
        if d = '.' ∧ e = '/' then afterDots rest2 else c :: rest
      | _ => c :: rest
    else c :: rest

/-- The second replace of content.js line 311: the regex caret
(dot dot slash)* node_modules slash strips any run of dot-dot-slash segments
followed by a node_modules/ segment; if node_modules/ does not follow the
maximal run, nothing matches and the string is unchanged. -/
def stripNodeModules (l : List Char) : List Char :=
  let r := afterDots l
  if startsL "node_modules/".data r then r.drop "node_modules/".data.length
  else l

/-- The rejection tests and segment selection of step 2, applied to the
already-cleaned string c2. -/
def stepTwoCore (c2 : String) : Option String :=
  if startsS c2 "." then none
  else if startsS c2 "/" && !startsS c2 "//" then none
  else if isAliasPath c2 then none
  else
    let parts := splitS c2 '/'
    let pkgName : Option String :=
      if startsS c2 "@" then
        if 1 < parts.length then some (parts.headI ++ "/" ++ (parts.drop 1).headI)
        else none
      else some parts.headI
    normalizePackageName pkgName

/-- Step 2 of PackageNameExtractor.extract (content.js lines 308-325):
standard import-path cleaning, then the first segment (first two for a scoped
name), then normalizePackageName. -/
def stepTwo (cleaned : String) : Option String :=
  stepTwoCore ⟨stripNodeModules (stripProto cleaned.data)⟩

/-- The part of extract after trimming and query/hash stripping (the cleaned
string). The try/catch around URL parsing is the match on tryParseUrl: a
parse failure falls through to step two exactly as the catch block does. -/
def extractCleaned (cleaned : String) : Option String :=
  if isAliasPath cleaned then none
  else
    match tryParseUrl cleaned with
    | some u =>
      if isCdnHost u.host then cdnExtract u
      else if regexProtoSlashes cleaned.data then none
      else stepTwo cleaned
    | none => stepTwo cleaned

/-- PackageNameExtractor.extract (content.js lines 256-326) on a string input:
trim, reject the empty string, strip query/hash, then the URL/step-2 pipeline. -/
def extract (importPath : String) : Option String :=
  if trimS importPath = "" then none
  else extractCleaned (stripQueryAndHash (trimS importPath))

/-- A JavaScript value as passed to extract: the source guards with
(not importPath) and a typeof check, so only non-empty strings proceed. -/
inductive JSVal where
  | str (s : String)
  | nullV
  | undef
  | boolean (b : Bool)
  | number
  | object
deriving DecidableEq, Repr

/-- extract on an arbitrary JavaScript value: non-strings are rejected by the
typeof guard of content.js line 257. -/
def extractVal : JSVal → Option String
  | .str s => extract s
  | _ => none

/- ## Internal-module filtering and the scanner's package record -/

/-- A non-empty run of characters the regex dot can match (the .+ of the
Polymer and YouTube patterns). -/
def dotPlus (l : List Char) : Bool := !l.isEmpty && l.all (fun c => !isLineTermC c)

/-- PackageNameExtractor.isInternalModule (content.js lines 187-204) against
CONFIG.INTERNAL_MODULE_PATTERNS. Both branches inside the source's loop return
true on a pattern match, so the detectedPackages argument never changes the
result and is dropped here. -/
def isInternalModule (packageName : String) : Bool :=
  if packageName = "" then false
  else
    (startsS packageName "prism-" && dotPlus (packageName.data.drop 6) &&
      (packageName.data.drop 6).all lowerAlphaC) ||
    startsS packageName "highlight.js/lib/languages/" ||
    startsS packageName "monaco-editor/esm/" ||
    startsS packageName "codemirror/mode/" ||
    startsS packageName "codemirror/addon/" ||
    startsS packageName "ace/mode/" ||
    startsS packageName "ace/theme/" ||
    packageName = "dom-module" || packageName = "custom-style" ||
    packageName = "ps-dom-if" || packageName = "ps-dom-repeat" ||
    (startsS packageName "iron-" && dotPlus (packageName.data.drop 5)) ||
    (startsS packageName "paper-" && dotPlus (packageName.data.drop 6)) ||
    (startsS packageName "neon-" && dotPlus (packageName.data.drop 5)) ||
    (startsS packageName "app-" && dotPlus (packageName.data.drop 4)) ||
    (startsS packageName "yt-" && dotPlus (packageName.data.drop 3)) ||
    (startsS packageName "ytd-" && dotPlus (packageName.data.drop 4))

/-- The scanner's packages map: package name to its list of provenance labels,
in insertion order (a JavaScript Map of Sets). -/
abbrev PackageRecord := List (String × List String)

def recKeys (rec : PackageRecord) : List String := rec.map (fun e => e.fst)

def recHas (rec : PackageRecord) (k : String) : Bool := rec.any (fun e => e.fst = k)

def recAddSource (rec : PackageRecord) (k src : String) : PackageRecord :=
  rec.map (fun e =>
    if e.fst = k then (e.fst, if src ∈ e.snd then e.snd else e.snd ++ [src]) else e)

/-- PackageScanner.addPackage (content.js lines 438-451). A none name models
null/undefined (extract's rejection); the falsy guard also drops the empty
string. Internal modules are filtered before recording. -/
def addPackage (rec : PackageRecord) (packageName : Option String) (source : String) :
    PackageRecord :=
  match packageName with
  | none => rec
  | some n =>
    if n = "" then rec
    else if isInternalModule n then rec
    else if recHas rec n then recAddSource rec n source
    else rec ++ [(n, [source])]

/-- PackageScanner.parsePackageJson (content.js lines 658-666): the keys of
dependencies and then devDependencies are fed directly to addPackage with
provenance /package.json, without passing through extract. -/
def parsePackageJson (rec : PackageRecord) (dependencies devDependencies : List String) :
    PackageRecord :=
  (dependencies ++ devDependencies).foldl
    (fun r d => addPackage r (some d) "/package.json") rec

/- ## Risk assessment (content.js assessRisk, duplicated in background.js) -/

inductive RiskLevel where
  | LOW
  | MEDIUM
  | HIGH
  | CRITICAL
deriving DecidableEq, Repr

/-- Three consecutive ASCII digits somewhere in the list: the regex
[0-9] repeated at least three times. -/
def hasDigitRun3 : List Char → Bool
  | a :: b :: c :: rest => (digitC a && digitC b && digitC c) || hasDigitRun3 (b :: c :: rest)
  | _ => false

/-- An adjacent pair from the class [il1] followed by [o0]. -/
def hasTypoPair : List Char → Bool
  | a :: b :: rest =>
    ((a = 'i' || a = 'l' || a = '1') && (b = 'o' || b = '0')) || hasTypoPair (b :: rest)
  | _ => false

/-- The typosquatting regex [0-9]{3,} or [il1][o0] of content.js line 731. -/
def suspiciousNameB (s : String) : Bool := hasDigitRun3 s.data || hasTypoPair s.data

def MIN_DOWNLOADS_SUSPICIOUS : Nat := 100

/-- Registry metadata for one package as consumed by the risk assessment:
the name field, the truthiness of the repository field, and the dist-tags
latest version when present. -/
structure PkgInfo where
  name : String
  repository : Bool
  latest : Option String := none
deriving DecidableEq, Repr

structure RiskAssessment where
  suspicious : Bool
  riskLevel : RiskLevel
  riskReasons : List String
deriving DecidableEq, Repr

/-- PackageScanner.assessRisk (content.js lines 719-738). The two conditions
are applied in source order: each one that fires sets suspicious, assigns the
level variable (the second assignment overwrites the first), and appends its
reason; the returned level falls back to LOW when nothing fired. -/
def assessRisk (info : PkgInfo) (downloads : Nat) : RiskAssessment :=
  let st1 : Bool × RiskLevel × List String :=
    if downloads < MIN_DOWNLOADS_SUSPICIOUS && !info.repository then
      (true, RiskLevel.HIGH, ["Low downloads + No Repo"])
    else (false, RiskLevel.LOW, [])
  let st2 : Bool × RiskLevel × List String :=
    if suspiciousNameB info.name then
      (true, RiskLevel.MEDIUM, st1.2.2 ++ ["Suspicious name pattern"])
    else st1
  { suspicious := st2.1
    riskLevel := if st2.1 then st2.2.1 else RiskLevel.LOW
    riskReasons := st2.2.2 }

/- ## Background registry lookup (background.js handleAnalyzePackage) -/

/-- The network environment of one handleAnalyzePackage call: the registry
response status and parsed body per name, and the downloads endpoint response.
A non-ok downloads response leaves the count at its initial zero. -/
structure RegistryEnv where
  status : String → Nat
  info : String → PkgInfo
  dlOk : String → Bool
  downloads : String → Nat

/-- One analysis result, covering the shapes the source returns from its
branches; fields a branch does not set keep their defaults. -/
structure Finding where
  name : String
  sources : List String
  suspicious : Bool := false
  isUnregistered : Bool := false
  riskLevel : RiskLevel := RiskLevel.LOW
  riskReasons : List String := []
  version : Option String := none
  weeklyDownloads : Option Nat := none
  error : Option String := none
deriving DecidableEq, Repr

/-- MessageHandler.handleAnalyzePackage (background.js lines 304-376):
404 from the registry is the dependency-confusion branch; 429 and other
non-ok statuses become per-package error strings; otherwise downloads are
fetched and the risk logic of lines 343-361 runs (it duplicates content.js
assessRisk verbatim, so the shared definition is reused here). -/
def handleAnalyzePackage (env : RegistryEnv) (name : String) (sources : List String) :
    Finding :=
  let st := env.status name
  if st = 404 then
    { name := name, sources := sources, suspicious := true, isUnregistered := true,
      riskLevel := RiskLevel.CRITICAL,
      riskReasons := ["Package not found on npmjs.org - potential dependency confusion"] }
  else if st = 429 then
    { name := name, sources := sources, error := some "Rate Limit Exceeded (429)" }
  else if !(200 ≤ st && st ≤ 299) then
    { name := name, sources := sources,
      error := some ("Registry Error (" ++ toString st ++ ")") }
  else
    let info := env.info name
    let downloads := if env.dlOk name then env.downloads name else 0
    let r := assessRisk info downloads
    { name := name, sources := sources,
      version := some (match info.latest with
        | some v => if v = "" then "?" else v
        | none => "?"),
      weeklyDownloads := some downloads,
      suspicious := r.suspicious, riskLevel := r.riskLevel, riskReasons := r.riskReasons }

/- ## Exposed-file probe (content.js checkExposedFiles) -/

/-- CONFIG.CONFIG_FILES from content.js. -/
def CONFIG_FILES : List String :=
  ["/package.json", "/package-lock.json", "/yarn.lock", "/pnpm-lock.yaml",
   "/npm-shrinkwrap.json", "/.npmrc", "/.yarnrc", "/.yarnrc.yml", "/node_modules/",
   "/webpack.config.js", "/vite.config.js", "/vite.config.ts", "/next.config.js",
   "/nuxt.config.js", "/rollup.config.js", "/babel.config.js", "/tsconfig.json",
   "/.env", "/.env.local", "/.env.development", "/.env.production", "/.env.test",
   "/docker-compose.yml", "/Dockerfile"]

/-- The regex caret backslash-s-star open-brace: optional whitespace then an
opening curly brace (codepoint 123). -/
def patJsonStart (s : String) : Bool :=
  match s.data.dropWhile jsWs with
  | c :: _ => c.toNat = 123
  | [] => false

/-- The yarn.lock regex caret hash dot-star yarn, or registry, with the i
flag: without the m flag the caret anchors at the start of the string and the
dot stays on the first line. -/
def patYarnLock (s : String) : Bool :=
  (match s.data with
   | '#' :: rest => containsL "yarn".data (lowerL (rest.takeWhile (fun c => !isLineTermC c)))
   | _ => false) ||
  containsS (toLowerS s) "registry"

def patPnpm (s : String) : Bool := startsS s "lockfileVersion"

def patNpmrc (s : String) : Bool :=
  containsS s "registry=" || containsS s "disturl=" ||
  containsS s "always-auth=" || containsS s "_auth="

def patYarnrc (s : String) : Bool := containsS s "--install" || containsS s "yarn-path"

def patYarnrcYml (s : String) : Bool := containsS s "nodeLinker:" || containsS s "yarnPath:"

def patNodeModules (s : String) : Bool :=
  containsS (toLowerS s) "index of" || containsS (toLowerS s) "parent directory"

def patWebpack (s : String) : Bool :=
  containsS s "module.exports" || containsS s "require(" || containsS s "import "

def patVite (s : String) : Bool := containsS s "export default" || containsS s "defineConfig"

def patNext (s : String) : Bool := containsS s "module.exports" || containsS s "nextConfig"

def patNuxt (s : String) : Bool :=
  containsS s "export default" || containsS s "defineNuxtConfig"

def patRollup (s : String) : Bool := containsS s "export default"

def patBabel (s : String) : Bool := containsS s "module.exports"

/-- One line matching caret [A-Z_]+ equals-sign. -/
def upKeyLine (l : List Char) : Bool :=
  let ks := l.takeWhile (fun c => upperAlphaC c || c.toNat = 95)
  !ks.isEmpty && (l.drop ks.length).headI = '='

/-- The dotenv regex caret [A-Z_]+ equals-sign with the m flag: some line
starts with an uppercase key followed by an equals sign. -/
def patEnv (s : String) : Bool := (splitP isLineTermC s.data).any upKeyLine

/-- The docker-compose regex: caret version-colon, or services-colon anywhere
(the caret binds only to the first alternative). -/
def patDockerCompose (s : String) : Bool :=
  startsS s "version:" || containsS s "services:"

def patDockerfile (s : String) : Bool := startsS (toLowerS s) "from "

/-- CONFIG.CONFIG_PATTERNS from content.js: the expected content signature per
probed filename, used for false-positive suppression. -/
def configPattern (filename : String) : Option (String → Bool) :=
  if filename = "package.json" then some patJsonStart
  else if filename = "package-lock.json" then some patJsonStart
  else if filename = "yarn.lock" then some patYarnLock
  else if filename = "pnpm-lock.yaml" then some patPnpm
  else if filename = "npm-shrinkwrap.json" then some patJsonStart
  else if filename = ".npmrc" then some patNpmrc
  else if filename = ".yarnrc" then some patYarnrc
  else if filename = ".yarnrc.yml" then some patYarnrcYml
  else if filename = "node_modules" then some patNodeModules
  else if filename = "webpack.config.js" then some patWebpack
  else if filename = "vite.config.js" then some patVite
  else if filename = "vite.config.ts" then some patVite
  else if filename = "next.config.js" then some patNext
  else if filename = "nuxt.config.js" then some patNuxt
  else if filename = "rollup.config.js" then some patRollup
  else if filename = "babel.config.js" then some patBabel
  else if filename = "tsconfig.json" then some patJsonStart
  else if filename = ".env" then some patEnv
  else if filename = ".env.local" then some patEnv
  else if filename = ".env.development" then some patEnv
  else if filename = ".env.production" then some patEnv
  else if filename = ".env.test" then some patEnv
  else if filename = "docker-compose.yml" then some patDockerCompose
  else if filename = "Dockerfile" then some patDockerfile
  else none

/-- The observable outcome of probing one path: whether the HEAD check and the
ranged GET succeeded, and the GET's status, body text and content type. A
throwing fetch is modelled by the environment returning none for the path. -/
structure HttpResp where
  okHead : Bool
  okGet : Bool
  status : Nat
  body : String
  contentType : Option String
deriving DecidableEq, Repr

/-- The network as seen by one checkExposedFiles run: the baseline body
fetched from the site root (empty when that fetch failed or returned nothing)
and the per-path probe outcome. -/
structure ProbeEnv where
  rootContent : String
  resp : String → Option HttpResp

structure ExposedFile where
  path : String
  risk : String
  status : Nat
  contentType : Option String
deriving DecidableEq, Repr

/-- The risk tier assigned to a surviving exposed-file finding
(content.js lines 623-625). -/
def exposedRisk (path : String) : String :=
  if containsS path ".env" || containsS path "npmrc" then "HIGH"
  else if containsS path "lock" || path = "/package.json" then "MEDIUM"
  else "LOW"

/-- The content validation of content.js lines 593-621: enforce the
per-filename signature when one exists, otherwise reject HTML-looking bodies
and content types (the generic soft-404 fallback). -/
def contentAccept (path : String) (r : HttpResp) (filename : String) : Bool :=
  match configPattern filename with
  | some pat => pat r.body
  | none =>
    let ct := toLowerS (r.contentType.getD "")
    if containsS ct "text/html" then false
    else if startsS (trimS r.body) "<!DOCTYPE" || startsS (trimS r.body) "<html" then false
    else
      let isHtml := containsS ct "text/html" || containsS r.body "<!DOCTYPE html>"
      let expectedJson := endsS path ".json" || endsS path "rc"
      if expectedJson && isHtml then false else true

/-- The filename key used to look up the content signature:
path.split('/').pop() with the node_modules fallback for a trailing slash. -/
def probeFilename (path : String) : String :=
  let fn := ((splitS path '/').reverse).headI
  if fn = "" then "node_modules" else fn

/-- The response-handling part of the checkFile closure (content.js lines
573-635), once the probe outcome r for the path is known: HEAD ok, ranged GET
ok, the soft-404 comparison against the root baseline, then the content
validation; a surviving probe yields the finding with its risk tier. -/
def checkFileResp (rootContent path : String) (r : HttpResp) : Option ExposedFile :=
  if r.okHead then
    if r.okGet then
      if decide (rootContent ≠ "") &&
          (decide (r.body = jsSliceTo rootContent r.body.data.length) ||
            containsS r.body "<!DOCTYPE html>") &&
          !endsS path ".html" then none
      else if contentAccept path r (probeFilename path) then
        some { path := path, risk := exposedRisk path,
               status := r.status, contentType := r.contentType }
      else none
    else none
  else none

/-- The checkFile closure inside PackageScanner.checkExposedFiles (content.js
lines 568-640); a throwing fetch (env.resp none) is the swallowed catch. -/
def checkFile (env : ProbeEnv) (path : String) : Option ExposedFile :=
  match env.resp path with
  | none => none
  | some r => checkFileResp env.rootContent path r

/-- PackageScanner.checkExposedFiles (content.js lines 556-656): every path of
CONFIG.CONFIG_FILES is probed and the surviving findings are collected. The
admission pool only bounds concurrency; it does not change which paths end up
in the list, so the result is the filterMap over the candidate list. (The side
effect of a surviving /package.json probe — ingestion of its dependency keys
into the package record — is modelled separately by parsePackageJson.) -/
def checkExposedFiles (env : ProbeEnv) : List ExposedFile :=
  CONFIG_FILES.filterMap (checkFile env)

/- ## RateLimiter (content.js lines 158-178) -/

/-- One execution of the atomic section of RateLimiter.waitForSlot, threaded
over the attempt times. The section from reading Date.now() to the push has no
await inside, so under the single-threaded event loop every interleaving of
callers is some chronological sequence of these steps: the state is filtered
to the timestamps younger than the window; if it still holds maxRequests
entries the caller sleeps and retries later (no admission, but the filtered
state persists), otherwise the current time is pushed (an admission). -/
def rlAdmits (maxRequests : Nat) (timeWindow : Int) : List Int → List Int → List Int
  | _, [] => []
  | reqs, now :: rest =>
    let f := reqs.filter (fun t => now - t < timeWindow)
    if maxRequests ≤ f.length then rlAdmits maxRequests timeWindow f rest
    else now :: rlAdmits maxRequests timeWindow (f ++ [now]) rest

/-- Membership of a time in the sliding window of length timeWindow anchored
just above a; half-open exactly as the source's strict now minus time less
than timeWindow comparison. -/
def inWindow (a timeWindow t : Int) : Bool :=
  decide (a < t) && decide (t ≤ a + timeWindow)

/- ## Concrete environments used as witnesses and counterexamples -/

/-- A run whose root fetch produced no baseline body: the exposed-file probe
then skips its soft-404 comparison entirely. The probed dotenv body carries an
HTML doctype yet still matches the dotenv content signature. -/
def emptyRootEnv : ProbeEnv :=
  { rootContent := ""
    resp := fun p =>
      if p = "/.env" then some ⟨true, true, 200, "A=<!DOCTYPE html>", some "text/plain"⟩
      else none }

/-- A run with a non-empty homepage baseline whose dotenv probe answers with a
doctype body: the soft-404 filter must discard it. -/
def doctypeRespEnv : ProbeEnv :=
  { rootContent := "<!DOCTYPE html><html></html>"
    resp := fun p =>
      if p = "/.env" then some ⟨true, true, 200, "A=<!DOCTYPE html>", some "text/plain"⟩
      else none }

def doctypeResp : HttpResp := ⟨true, true, 200, "A=<!DOCTYPE html>", some "text/plain"⟩

/-- A registry that answers 404 for every name. -/
def always404Env : RegistryEnv :=
  { status := fun _ => 404
    info := fun n => { name := n, repository := false }
    dlOk := fun _ => false
    downloads := fun _ => 0 }

/- ## Basic lemmas about the string primitives -/

theorem splitP_ne_nil (p : Char → Bool) (l : List Char) : splitP p l ≠ [] := by
  induction l with
  | nil => simp [splitP]
  | cons c rest ih =>
    by_cases hc : p c
    · simp [splitP, hc]
    · simp only [splitP, hc, if_false, Bool.false_eq_true]
      cases hsp : splitP p rest with
      | nil => exact absurd hsp ih
      | cons s ss => simp

theorem splitP_no_sep (p : Char → Bool) (l : List Char)
    (h : ∀ c ∈ l, p c = false) : splitP p l = [l] := by
  induction l with
  | nil => rfl
  | cons c rest ih =>
    have hc : p c = false := h c (by simp)
    have := ih (fun d hd => h d (by simp [hd]))
    simp [splitP, hc, this]

theorem splitP_append_sep (p : Char → Bool) (x y : List Char) (sep : Char)
    (hx : ∀ c ∈ x, p c = false) (hsep : p sep = true) :
    splitP p (x ++ sep :: y) = x :: splitP p y := by
  induction x with
  | nil => simp [splitP, hsep]
  | cons c rest ih =>
    have hc : p c = false := hx c (by simp)
    have h2 := ih (fun d hd => hx d (by simp [hd]))
    simp only [List.cons_append, splitP, hc, if_false, Bool.false_eq_true,
      List.append_eq, h2]

theorem splitP_eq_singleton (p : Char → Bool) (l x : List Char)
    (h : splitP p l = [x]) : l = x ∧ ∀ c ∈ l, p c = false := by
  induction l generalizing x with
  | nil =>
    simp only [splitP] at h
    injection h with h1 _
    exact ⟨h1, by simp⟩
  | cons c rest ih =>
    by_cases hc : p c
    · simp only [splitP, hc, if_true] at h
      cases hsp : splitP p rest with
      | nil => exact absurd hsp (splitP_ne_nil p rest)
      | cons s ss => rw [hsp] at h; simp at h
    · simp only [splitP, hc, if_false, Bool.false_eq_true] at h
      cases hsp : splitP p rest with
      | nil => exact absurd hsp (splitP_ne_nil p rest)
      | cons s ss =>
        rw [hsp] at h
        injection h with h1 h2
        have hss : ss = [] := by simpa using h2
        subst hss
        obtain ⟨hrest, hall⟩ := ih s hsp
        subst hrest
        refine ⟨h1, ?_⟩
        intro d hd
        rcases List.mem_cons.mp hd with h3 | h4
        · subst h3; simpa using hc
        · exact hall d h4

theorem splitP_eq_pair (p : Char → Bool) (l x y : List Char)
    (h : splitP p l = [x, y]) :
    ∃ sep, p sep = true ∧ l = x ++ sep :: y ∧
      (∀ c ∈ x, p c = false) ∧ (∀ c ∈ y, p c = false) := by
  induction l generalizing x with
  | nil => simp [splitP] at h
  | cons c rest ih =>
    by_cases hc : p c
    · simp only [splitP, hc, if_true] at h
      injection h with h1 h2
      obtain ⟨hr, hall⟩ := splitP_eq_singleton p rest y (by simpa using h2)
      subst hr
      subst h1
      exact ⟨c, hc, by simp, by simp, hall⟩
    · simp only [splitP, hc, if_false, Bool.false_eq_true] at h
      cases hsp : splitP p rest with
      | nil => exact absurd hsp (splitP_ne_nil p rest)
      | cons s ss =>
        rw [hsp] at h
        injection h with h1 h2
        obtain ⟨sep, hsep, hrest, hxs, hys⟩ := ih s (by rw [hsp, h2])
        subst hrest
        refine ⟨sep, hsep, by rw [← h1]; simp, ?_, hys⟩
        intro d hd
        rw [← h1] at hd
        rcases List.mem_cons.mp hd with h3 | h4
        · subst h3; simpa using hc
        · exact hxs d h4

theorem takeWhile_all_of (p : Char → Bool) (l : List Char)
    (h : ∀ c ∈ l, p c = true) : l.takeWhile p = l := by
  induction l with
  | nil => rfl
  | cons c rest ih =>
    have hc := h c (by simp)
    simp [List.takeWhile_cons, hc, ih (fun d hd => h d (by simp [hd]))]

theorem dropWhile_none_of (p : Char → Bool) (l : List Char)
    (h : ∀ c ∈ l, p c = false) : l.dropWhile p = l := by
  cases l with
  | nil => rfl
  | cons c rest => simp [List.dropWhile_cons, h c (by simp)]

theorem takeWhile_append_stop (p : Char → Bool) (x y : List Char) (b : Char)
    (hx : ∀ c ∈ x, p c = true) (hb : p b = false) :
    (x ++ b :: y).takeWhile p = x := by
  induction x with
  | nil => simp [List.takeWhile_cons, hb]
  | cons c rest ih =>
    have hc := hx c (by simp)
    simp [List.takeWhile_cons, hc, ih (fun d hd => hx d (by simp [hd]))]

theorem dropWhile_append_stop (p : Char → Bool) (x y : List Char) (b : Char)
    (hx : ∀ c ∈ x, p c = true) (hb : p b = false) :
    (x ++ b :: y).dropWhile p = b :: y := by
  induction x with
  | nil => simp [List.dropWhile_cons, hb]
  | cons c rest ih =>
    have hc := hx c (by simp)
    simp [List.dropWhile_cons, hc, ih (fun d hd => hx d (by simp [hd]))]

theorem map_id_on (f : Char → Char) (l : List Char)
    (h : ∀ c ∈ l, f c = c) : l.map f = l := by
  induction l with
  | nil => rfl
  | cons c rest ih => simp [h c (by simp), ih (fun d hd => h d (by simp [hd]))]

theorem startsL_mem (pre l : List Char) (h : startsL pre l = true) :
    ∀ c ∈ pre, c ∈ l := by
  intro c hc
  have := List.isPrefixOf_iff_prefix.mp h
  obtain ⟨t, ht⟩ := this
  rw [← ht]
  exact List.mem_append_left t hc

theorem startsL_head_ne (x : Char) (xs l : List Char) (c : Char) (rest : List Char)
    (hl : l = c :: rest) (hne : c ≠ x) : startsL (x :: xs) l = false := by
  subst hl
  simp [startsL, List.isPrefixOf, Ne.symm hne]

theorem containsL_single_false (a : Char) (l : List Char)
    (h : ∀ c ∈ l, c ≠ a) : containsL [a] l = false := by
  induction l with
  | nil => rfl
  | cons c rest ih =>
    have hc := h c (by simp)
    simp only [containsL, List.isPrefixOf, Bool.or_eq_false_iff]
    constructor
    · simp [Ne.symm hc]
    · exact ih (fun d hd => h d (by simp [hd]))

/- ## Character-class facts for canonical names -/

/-- Every character that can occur in a string accepted by the canonical
grammar: a simple-name character, the at-sign (64) or the slash (47). -/
def allowedC (c : Char) : Bool := nameCharR c || c.toNat = 64 || c.toNat = 47

theorem allowed_val (c : Char) (h : allowedC c = true) :
    (97 ≤ c.toNat ∧ c.toNat ≤ 122) ∨ (48 ≤ c.toNat ∧ c.toNat ≤ 57) ∨
    c.toNat = 45 ∨ c.toNat = 126 ∨ c.toNat = 46 ∨ c.toNat = 95 ∨
    c.toNat = 64 ∨ c.toNat = 47 := by
  simp only [allowedC, nameCharR, nameChar1, lowerAlphaC, digitC, Bool.or_eq_true,
    Bool.and_eq_true, decide_eq_true_eq] at h
  tauto

theorem nameChar1_val (c : Char) (h : nameChar1 c = true) :
    (97 ≤ c.toNat ∧ c.toNat ≤ 122) ∨ (48 ≤ c.toNat ∧ c.toNat ≤ 57) ∨
    c.toNat = 45 ∨ c.toNat = 126 := by
  simp only [nameChar1, lowerAlphaC, digitC, Bool.or_eq_true, Bool.and_eq_true,
    decide_eq_true_eq] at h
  tauto

theorem nameCharR_val (c : Char) (h : nameCharR c = true) :
    (97 ≤ c.toNat ∧ c.toNat ≤ 122) ∨ (48 ≤ c.toNat ∧ c.toNat ≤ 57) ∨
    c.toNat = 45 ∨ c.toNat = 126 ∨ c.toNat = 46 ∨ c.toNat = 95 := by
  simp only [nameCharR, nameChar1, lowerAlphaC, digitC, Bool.or_eq_true,
    Bool.and_eq_true, decide_eq_true_eq] at h
  tauto

theorem nameCharR_allowed (c : Char) (h : nameCharR c = true) : allowedC c = true := by
  simp [allowedC, h]

theorem char_ne_of_toNat (c d : Char) (h : c.toNat ≠ d.toNat) : c ≠ d := by
  intro he; exact h (he ▸ rfl)

theorem allowed_not_ws (c : Char) (h : allowedC c = true) : jsWs c = false := by
  have hv := allowed_val c h
  simp only [jsWs, Bool.or_eq_false_iff, decide_eq_false_iff_not]
  omega

theorem allowed_not_lineTerm (c : Char) (h : allowedC c = true) : isLineTermC c = false := by
  have hv := allowed_val c h
  simp only [isLineTermC, Bool.or_eq_false_iff, decide_eq_false_iff_not]
  omega

theorem allowed_lower_id (c : Char) (h : allowedC c = true) : lowerC c = c := by
  have hv := allowed_val c h
  rw [lowerC, if_neg]
  omega

theorem allowed_ne_hash (c : Char) (h : allowedC c = true) : c ≠ '#' := by
  have hv := allowed_val c h
  exact char_ne_of_toNat c '#' (by rw [show ('#'.toNat : Nat) = 35 from rfl]; omega)

theorem allowed_ne_question (c : Char) (h : allowedC c = true) : c ≠ '?' := by
  have hv := allowed_val c h
  exact char_ne_of_toNat c '?' (by rw [show ('?'.toNat : Nat) = 63 from rfl]; omega)

theorem allowed_ne_colon (c : Char) (h : allowedC c = true) : c ≠ ':' := by
  have hv := allowed_val c h
  exact char_ne_of_toNat c ':' (by rw [show (':'.toNat : Nat) = 58 from rfl]; omega)

theorem nameCharR_ne_slash (c : Char) (h : nameCharR c = true) : c ≠ '/' := by
  have hv := nameCharR_val c h
  exact char_ne_of_toNat c '/' (by rw [show ('/'.toNat : Nat) = 47 from rfl]; omega)

theorem nameCharR_ne_at (c : Char) (h : nameCharR c = true) : c ≠ '@' := by
  have hv := nameCharR_val c h
  exact char_ne_of_toNat c '@' (by rw [show ('@'.toNat : Nat) = 64 from rfl]; omega)

theorem nameChar1_ne_dot (c : Char) (h : nameChar1 c = true) : c ≠ '.' := by
  have hv := nameChar1_val c h
  exact char_ne_of_toNat c '.' (by rw [show ('.'.toNat : Nat) = 46 from rfl]; omega)

theorem nameChar1_ne_slash (c : Char) (h : nameChar1 c = true) : c ≠ '/' := by
  have hv := nameChar1_val c h
  exact char_ne_of_toNat c '/' (by rw [show ('/'.toNat : Nat) = 47 from rfl]; omega)

theorem nameChar1_ne_at (c : Char) (h : nameChar1 c = true) : c ≠ '@' := by
  have hv := nameChar1_val c h
  exact char_ne_of_toNat c '@' (by rw [show ('@'.toNat : Nat) = 64 from rfl]; omega)

theorem nameChar1_ne_backslash (c : Char) (h : nameChar1 c = true) : c ≠ '\\' := by
  have hv := nameChar1_val c h
  exact char_ne_of_toNat c '\\' (by rw [show ('\\'.toNat : Nat) = 92 from rfl]; omega)

theorem nameChar1_not_alpha_upper (c : Char) (h : nameChar1 c = true) :
    ¬(65 ≤ c.toNat ∧ c.toNat ≤ 90) := by
  have hv := nameChar1_val c h
  omega

/- ## Structure of grammar-valid names -/

theorem simpleNameL_parts (l : List Char) (h : simpleNameL l = true) :
    l ≠ [] ∧ (∀ c ∈ l, nameCharR c = true) ∧ nameChar1 l.headI = true := by
  cases l with
  | nil => simp [simpleNameL] at h
  | cons c rest =>
    simp only [simpleNameL, Bool.and_eq_true, List.all_eq_true] at h
    refine ⟨by simp, ?_, by simpa using h.1⟩
    intro d hd
    rcases List.mem_cons.mp hd with h1 | h2
    · subst h1
      simp [nameCharR, h.1]
    · exact h.2 d h2

theorem validNameL_cases (l : List Char) (h : validNameL l = true) :
    (∃ scope nm, l = '@' :: (scope ++ '/' :: nm) ∧ simpleNameL scope = true ∧
      simpleNameL nm = true) ∨
    (simpleNameL l = true ∧ l.headI ≠ '@') := by
  cases l with
  | nil => simp [validNameL] at h
  | cons c rest =>
    by_cases hc : c = '@'
    · subst hc
      left
      simp only [validNameL, if_pos rfl] at h
      rcases hsp : splitC '/' rest with _ | ⟨s, _ | ⟨t, _ | _⟩⟩ <;> rw [hsp] at h
      · simp at h
      · simp at h
      · simp only [eq_self_iff_true, if_true, Bool.and_eq_true] at h
        obtain ⟨sep, hsep, hrest, _, _⟩ := splitP_eq_pair _ rest s t hsp
        have : sep = '/' := by simpa using hsep
        subst this
        exact ⟨s, t, by rw [hrest], h.1, h.2⟩
      · simp at h
    · right
      simp only [validNameL, if_neg hc] at h
      refine ⟨h, ?_⟩
      simpa using hc

theorem validNameL_all_allowed (l : List Char) (h : validNameL l = true) :
    ∀ c ∈ l, allowedC c = true := by
  intro c hc
  rcases validNameL_cases l h with ⟨scope, nm, hl, hsc, hnm⟩ | ⟨hs, _⟩
  · subst hl
    rcases List.mem_cons.mp hc with h1 | h2
    · subst h1; simp [allowedC]
    · rcases List.mem_append.mp h2 with h3 | h4
      · exact nameCharR_allowed c ((simpleNameL_parts scope hsc).2.1 c h3)
      · rcases List.mem_cons.mp h4 with h5 | h6
        · subst h5; simp [allowedC]
        · exact nameCharR_allowed c ((simpleNameL_parts nm hnm).2.1 c h6)
  · exact nameCharR_allowed c ((simpleNameL_parts l hs).2.1 c hc)

theorem validNameL_ne_nil (l : List Char) (h : validNameL l = true) : l ≠ [] := by
  intro he; rw [he] at h; simp [validNameL] at h

theorem allowed_ne_backslash (c : Char) (h : allowedC c = true) : c ≠ '\\' := by
  have hv := allowed_val c h
  exact char_ne_of_toNat c '\\' (by rw [show ('\\'.toNat : Nat) = 92 from rfl]; omega)

theorem startsL_false_of_not_mem (pre l : List Char) (c : Char) (hc : c ∈ pre)
    (hnl : c ∉ l) : startsL pre l = false := by
  cases hb : startsL pre l
  · rfl
  · exact absurd (startsL_mem pre l hb c hc) hnl

theorem startsL_second_ne (x y c d : Char) (rest : List Char) (hne : d ≠ y) :
    startsL [x, y] (c :: d :: rest) = false := by
  simp [startsL, List.isPrefixOf, Ne.symm hne]

/- ## The extraction pipeline is the identity on clean canonical names -/

theorem trimS_valid (s : String) (hv : validNameL s.data = true) : trimS s = s := by
  have hall := validNameL_all_allowed s.data hv
  have hno : ∀ c ∈ s.data, jsWs c = false := fun c hc => allowed_not_ws c (hall c hc)
  show (⟨trimL s.data⟩ : String) = s
  have h1 : trimL s.data = s.data := by
    unfold trimL
    rw [dropWhile_none_of _ _ hno,
      dropWhile_none_of _ _ (fun c hc => hno c (List.mem_reverse.mp hc)),
      List.reverse_reverse]
  rw [h1]

theorem toLowerS_valid (s : String) (hv : validNameL s.data = true) : toLowerS s = s := by
  have hall := validNameL_all_allowed s.data hv
  show (⟨lowerL s.data⟩ : String) = s
  have h1 : lowerL s.data = s.data :=
    map_id_on _ _ (fun c hc => allowed_lower_id c (hall c hc))
  rw [h1]

theorem stripQueryAndHash_valid (s : String) (hv : validNameL s.data = true) :
    stripQueryAndHash s = s := by
  have hall := validNameL_all_allowed s.data hv
  show (⟨_⟩ : String) = s
  have h1 : s.data.takeWhile (fun c => c ≠ '#') = s.data :=
    takeWhile_all_of _ _ (fun c hc => by
      simp [allowed_ne_hash c (hall c hc)])
  have h2 : s.data.takeWhile (fun c => c ≠ '?') = s.data :=
    takeWhile_all_of _ _ (fun c hc => by
      simp [allowed_ne_question c (hall c hc)])
  rw [h1, h2]

theorem drivePathB_valid (s : String) (hv : validNameL s.data = true) :
    drivePathB s = false := by
  have hall := validNameL_all_allowed s.data hv
  rcases hd : s.data with _ | ⟨a, _ | ⟨b, _ | ⟨c, rest⟩⟩⟩
  · unfold drivePathB; rw [hd]
  · unfold drivePathB; rw [hd]
  · unfold drivePathB; rw [hd]
  · have hb : b ∈ s.data := by rw [hd]; simp
    have hbc := allowed_ne_colon b (hall b hb)
    unfold drivePathB; rw [hd]
    simp [hbc]

theorem roots_no_at : ∀ t ∈ INTERNAL_ALIAS_ROOTS, t.data.headI ≠ '@' := by decide

theorem isAliasPath_valid (s : String) (hv : validNameL s.data = true) (hne : s ≠ "~") :
    isAliasPath s = false := by
  have hall := validNameL_all_allowed s.data hv
  have hnnil : s.data ≠ [] := validNameL_ne_nil s.data hv
  have hs0 : s ≠ "" := fun he => hnnil (by rw [he])
  have htrim : trimS s = s := trimS_valid s hv
  have hlow : toLowerS s = s := toLowerS_valid s hv
  have hbackslash : '\\' ∉ s.data :=
    fun hm => absurd rfl (allowed_ne_backslash '\\' (hall '\\' hm))
  have hC : startsS s "\\\\" = false :=
    startsL_false_of_not_mem _ _ '\\' (by decide) hbackslash
  have hB : drivePathB s = false := drivePathB_valid s hv
  rcases validNameL_cases s.data hv with ⟨scope, nm, hl, hsc, hnmn⟩ | ⟨hsim, hhead⟩
  · -- scoped: s.data = '@' :: (scope ++ '/' :: nm)
    obtain ⟨hscne, hscall, hschead⟩ := simpleNameL_parts scope hsc
    obtain ⟨hnmne, hnmall, _⟩ := simpleNameL_parts nm hnmn
    obtain ⟨s0, srest, hsc0⟩ := List.exists_cons_of_ne_nil hscne
    have hA : startsS s "/" = false :=
      startsL_head_ne '/' [] s.data '@' _ hl (by decide)
    have hD : startsS s "@/" = false := by
      have h2 : s.data = '@' :: s0 :: (srest ++ '/' :: nm) := by
        rw [hl, hsc0]; rfl
      have hs0c : nameChar1 s0 = true := by
        have := hschead; rw [hsc0] at this; simpa using this
      show startsL ['@', '/'] s.data = false
      rw [h2]
      exact startsL_second_ne '@' '/' '@' s0 _ (nameChar1_ne_slash s0 hs0c)
    have hE : startsS s "~/" = false :=
      startsL_head_ne '~' ['/'] s.data '@' _ hl (by decide)
    have hF : startsS s "~~/" = false :=
      startsL_head_ne '~' ['~', '/'] s.data '@' _ hl (by decide)
    have hparts : splitC '/' s.data = [('@' :: scope), nm] := by
      have hx : ∀ c ∈ ('@' :: scope), (fun c => decide (c = '/')) c = false := by
        intro c hc
        rcases List.mem_cons.mp hc with h1 | h2
        · subst h1; decide
        · simp [nameCharR_ne_slash c (hscall c h2)]
      have hy : splitP (fun c => decide (c = '/')) nm = [nm] :=
        splitP_no_sep _ nm (fun c hc => by simp [nameCharR_ne_slash c (hnmall c hc)])
      have heq : s.data = ('@' :: scope) ++ '/' :: nm := by rw [hl]; rfl
      rw [heq]
      show splitP (fun c => decide (c = '/')) (('@' :: scope) ++ '/' :: nm) = _
      rw [splitP_append_sep _ _ _ '/' hx (by decide), hy]
    have hscopeall : ∀ c ∈ ('@' :: scope), allowedC c = true := by
      intro c hc
      rcases List.mem_cons.mp hc with h1 | h2
      · subst h1; decide
      · exact nameCharR_allowed c (hscall c h2)
    have hmem : toLowerS (⟨'@' :: scope⟩ : String) ∉ INTERNAL_ALIAS_ROOTS := by
      have hlid : toLowerS (⟨'@' :: scope⟩ : String) = ⟨'@' :: scope⟩ := by
        show (⟨lowerL ('@' :: scope)⟩ : String) = _
        have h3 : lowerL ('@' :: scope) = '@' :: scope :=
          map_id_on _ _ (fun c hc => allowed_lower_id c (hscopeall c hc))
        rw [h3]
      rw [hlid]
      intro hmem
      exact roots_no_at _ hmem (by simp)
    have hm2 : decide (toLowerS (⟨'@' :: scope⟩ : String) ∈ INTERNAL_ALIAS_ROOTS) = false :=
      decide_eq_false hmem
    unfold isAliasPath
    rw [if_neg hs0]
    simp only [htrim, hlow]
    simp [hA, hB, hC, hD, hE, hF, splitS, hparts, hne, hm2]
  · -- unscoped: no slash, no at-sign anywhere
    have hslash : '/' ∉ s.data :=
      fun hm => absurd rfl (nameCharR_ne_slash '/' ((simpleNameL_parts _ hsim).2.1 '/' hm))
    have hA : startsS s "/" = false :=
      startsL_false_of_not_mem _ _ '/' (by decide) hslash
    have hD : startsS s "@/" = false :=
      startsL_false_of_not_mem _ _ '/' (by decide) hslash
    have hE : startsS s "~/" = false :=
      startsL_false_of_not_mem _ _ '/' (by decide) hslash
    have hF : startsS s "~~/" = false :=
      startsL_false_of_not_mem _ _ '/' (by decide) hslash
    have hparts : splitC '/' s.data = [s.data] :=
      splitP_no_sep _ s.data (fun c hc => by
        simp
        intro he
        exact hslash (he ▸ hc))
    unfold isAliasPath
    rw [if_neg hs0]
    simp only [htrim, hlow]
    simp [hA, hB, hC, hD, hE, hF, splitS, hparts, hne]

theorem validNameL_headI (l : List Char) (h : validNameL l = true) :
    l.headI = '@' ∨ nameChar1 l.headI = true := by
  rcases validNameL_cases l h with ⟨scope, nm, hl, _, _⟩ | ⟨hsim, _⟩
  · left; rw [hl]; rfl
  · right; exact (simpleNameL_parts l hsim).2.2

theorem startsL_false_head (x : Char) (xs l : List Char) (hne : l ≠ [])
    (hh : l.headI ≠ x) : startsL (x :: xs) l = false := by
  obtain ⟨c, r, rfl⟩ := List.exists_cons_of_ne_nil hne
  have : c ≠ x := by simpa using hh
  simp [startsL, List.isPrefixOf, Ne.symm this]

theorem schemeSplitAux_none (l : List Char) (h : ∀ c ∈ l, c ≠ ':') :
    ∀ acc, schemeSplitAux acc l = none := by
  induction l with
  | nil => intro acc; rfl
  | cons c rest ih =>
    intro acc
    have hc := h c (by simp)
    unfold schemeSplitAux
    rw [if_neg hc]
    by_cases hs : schemeCharB c = true
    · rw [if_pos hs]; exact ih (fun d hd => h d (by simp [hd])) _
    · rw [if_neg hs]

theorem valid_lead_slashes (s : String) (hv : validNameL s.data = true) :
    startsL ['/', '/'] s.data = false := by
  refine startsL_false_head '/' ['/'] s.data (validNameL_ne_nil s.data hv) ?_
  rcases validNameL_headI s.data hv with h | h
  · rw [h]; decide
  · exact nameChar1_ne_slash _ h

theorem tryParseUrl_valid (s : String) (hv : validNameL s.data = true) :
    tryParseUrl s = some ⟨"example.com", []⟩ := by
  have hall := validNameL_all_allowed s.data hv
  have hcolon : ∀ c ∈ s.data, c ≠ ':' := fun c hc => allowed_ne_colon c (hall c hc)
  have hss := valid_lead_slashes s hv
  have hscheme : schemeSplit s.data = none := by
    rcases hd : s.data with _ | ⟨c, rest⟩
    · rfl
    · show (if alphaC c = true then schemeSplitAux [c] rest else none) = none
      by_cases ha : alphaC c = true
      · rw [if_pos ha]
        exact schemeSplitAux_none rest
          (fun d hd2 => hcolon d (by rw [hd]; simp [hd2])) [c]
      · rw [if_neg ha]
  unfold tryParseUrl
  simp only [hss, hscheme, Bool.false_eq_true, if_false]

theorem regexProtoSlashes_valid (s : String) (hv : validNameL s.data = true) :
    regexProtoSlashes s.data = false := by
  have hall := validNameL_all_allowed s.data hv
  have hcolon : ':' ∉ s.data := fun hm => absurd rfl (allowed_ne_colon ':' (hall ':' hm))
  have h1 := valid_lead_slashes s hv
  have h2 : startsL "http://".data s.data = false :=
    startsL_false_of_not_mem _ _ ':' (by decide) hcolon
  have h3 : startsL "https://".data s.data = false :=
    startsL_false_of_not_mem _ _ ':' (by decide) hcolon
  simp [regexProtoSlashes, h1, h2, h3]

theorem stripProto_valid (s : String) (hv : validNameL s.data = true) :
    stripProto s.data = s.data := by
  have hall := validNameL_all_allowed s.data hv
  have hcolon : ':' ∉ s.data := fun hm => absurd rfl (allowed_ne_colon ':' (hall ':' hm))
  have h1 : startsL "https://".data s.data = false :=
    startsL_false_of_not_mem _ _ ':' (by decide) hcolon
  have h2 : startsL "http://".data s.data = false :=
    startsL_false_of_not_mem _ _ ':' (by decide) hcolon
  have h3 : startsL "node:".data s.data = false :=
    startsL_false_of_not_mem _ _ ':' (by decide) hcolon
  have h4 : startsL "file:".data s.data = false :=
    startsL_false_of_not_mem _ _ ':' (by decide) hcolon
  simp [stripProto, h1, h2, h3, h4]

theorem afterDots_head_ne (l : List Char) (hh : l.headI ≠ '.') : afterDots l = l := by
  cases l with
  | nil => rfl
  | cons c rest =>
    have hc : c ≠ '.' := by simpa using hh
    unfold afterDots
    rw [if_neg hc]

theorem stripNodeModules_valid (s : String) (hv : validNameL s.data = true) :
    stripNodeModules s.data = s.data := by
  have hdot : s.data.headI ≠ '.' := by
    rcases validNameL_headI s.data hv with h | h
    · rw [h]; decide
    · exact nameChar1_ne_dot _ h
  have had : afterDots s.data = s.data := afterDots_head_ne s.data hdot
  have hnm : startsL "node_modules/".data s.data = false := by
    rcases validNameL_cases s.data hv with ⟨scope, nm, hl, _, _⟩ | ⟨hsim, _⟩
    · refine startsL_false_head 'n' _ s.data (validNameL_ne_nil s.data hv) ?_
      rw [hl]
      show ('@' : Char) ≠ 'n'
      decide
    · have hslash : '/' ∉ s.data := fun hm =>
        absurd rfl (nameCharR_ne_slash '/' ((simpleNameL_parts _ hsim).2.1 '/' hm))
      exact startsL_false_of_not_mem _ _ '/' (by decide) hslash
  unfold stripNodeModules
  simp only [had, hnm, Bool.false_eq_true, if_false]

theorem any_false_of (p : Char → Bool) (l : List Char)
    (h : ∀ c ∈ l, p c = false) : l.any p = false :=
  List.any_eq_false.mpr (fun c hc => by simp [h c hc])

theorem normalizePackageName_valid_id (r : String) (hv : validNameL r.data = true)
    (hb : r ∉ NODE_BUILTINS) : normalizePackageName (some r) = some r := by
  have hr0 : r ≠ "" := fun he => validNameL_ne_nil r.data hv (by rw [he])
  have hvB : (!validNameL r.data) = false := by rw [hv]; rfl
  rcases validNameL_cases r.data hv with ⟨scope, nm, hl, hsc, hnmn⟩ | ⟨hsim, _⟩
  · -- scoped name
    obtain ⟨hscne, hscall, hschead⟩ := simpleNameL_parts scope hsc
    obtain ⟨hnmne, hnmall, hnmhead⟩ := simpleNameL_parts nm hnmn
    have hat : startsS r "@" = true := by
      show startsL ['@'] r.data = true
      rw [hl]
      simp [startsL, List.isPrefixOf]
    have htail : r.data.tail = scope ++ '/' :: nm := by rw [hl]; rfl
    have htake : (scope ++ '/' :: nm).takeWhile (fun c => c ≠ '/') = scope :=
      takeWhile_append_stop _ _ _ '/'
        (fun c hc => by simp [nameCharR_ne_slash c (hscall c hc)]) (by simp)
    have hdrop : (scope ++ '/' :: nm).dropWhile (fun c => c ≠ '/') = '/' :: nm :=
      dropWhile_append_stop _ _ _ '/'
        (fun c hc => by simp [nameCharR_ne_slash c (hscall c hc)]) (by simp)
    have hscE : scope.isEmpty = false := by
      obtain ⟨c, rest, rfl⟩ := List.exists_cons_of_ne_nil hscne; rfl
    have hnmE : nm.isEmpty = false := by
      obtain ⟨c, rest, rfl⟩ := List.exists_cons_of_ne_nil hnmne; rfl
    have hnmLT : nm.any isLineTermC = false :=
      any_false_of _ _ (fun c hc =>
        allowed_not_lineTerm c (nameCharR_allowed c (hnmall c hc)))
    have hnmAt : nm.takeWhile (fun c => c ≠ '@') = nm :=
      takeWhile_all_of _ _ (fun c hc => by simp [nameCharR_ne_at c (hnmall c hc)])
    have hrec : ('@' :: scope ++ '/' :: nm) = r.data := by rw [hl]; rfl
    show normalizePackageNameS r = some r
    unfold normalizePackageNameS
    rw [if_neg hr0]
    simp only [hat, if_true, htail, htake, hdrop, hscE, hnmE, hnmLT, hnmAt,
      Bool.false_eq_true, if_false, Bool.or_self, Bool.or_false, Bool.false_or]
    rw [hrec]
    show (if r ∈ NODE_BUILTINS then none
      else if (!validNameL r.data) = true then none else some r) = some r
    rw [if_neg hb, hvB]
    rfl
  · -- simple name
    obtain ⟨hne, hallr, hhead⟩ := simpleNameL_parts r.data hsim
    have hat : startsS r "@" = false :=
      startsL_false_head '@' [] r.data hne (nameChar1_ne_at _ hhead)
    have hcontains : containsL ['@'] r.data = false :=
      containsL_single_false '@' r.data (fun c hc => nameCharR_ne_at c (hallr c hc))
    show normalizePackageNameS r = some r
    unfold normalizePackageNameS
    rw [if_neg hr0]
    simp only [hat, hcontains, Bool.false_eq_true, if_false]
    rw [if_neg hb, hvB]
    rfl

theorem stepTwo_valid_id (r : String) (hv : validNameL r.data = true)
    (hb : r ∉ NODE_BUILTINS) (ht : r ≠ "~") : stepTwo r = some r := by
  have hnnil := validNameL_ne_nil r.data hv
  have hsp := stripProto_valid r hv
  have hsnm : stripNodeModules (stripProto r.data) = r.data := by
    rw [hsp]; exact stripNodeModules_valid r hv
  have hc2 : (⟨stripNodeModules (stripProto r.data)⟩ : String) = r := by rw [hsnm]
  have hdotS : startsS r "." = false := by
    refine startsL_false_head '.' [] r.data hnnil ?_
    rcases validNameL_headI r.data hv with h | h
    · rw [h]; decide
    · exact nameChar1_ne_dot _ h
  have hslashS : startsS r "/" = false := by
    refine startsL_false_head '/' [] r.data hnnil ?_
    rcases validNameL_headI r.data hv with h | h
    · rw [h]; decide
    · exact nameChar1_ne_slash _ h
  have halias : isAliasPath r = false := isAliasPath_valid r hv ht
  have hnorm := normalizePackageName_valid_id r hv hb
  rcases validNameL_cases r.data hv with ⟨scope, nm, hl, hsc, hnmn⟩ | ⟨hsim, _⟩
  · -- scoped name: two path segments
    obtain ⟨hscne, hscall, _⟩ := simpleNameL_parts scope hsc
    obtain ⟨hnmne, hnmall, _⟩ := simpleNameL_parts nm hnmn
    have hat : startsS r "@" = true := by
      show startsL ['@'] r.data = true
      rw [hl]
      simp [startsL, List.isPrefixOf]
    have hparts : splitC '/' r.data = [('@' :: scope), nm] := by
      have hx : ∀ c ∈ ('@' :: scope), (fun c => decide (c = '/')) c = false := by
        intro c hc
        rcases List.mem_cons.mp hc with h1 | h2
        · subst h1; decide
        · simp [nameCharR_ne_slash c (hscall c h2)]
      have hy : splitP (fun c => decide (c = '/')) nm = [nm] :=
        splitP_no_sep _ nm (fun c hc => by simp [nameCharR_ne_slash c (hnmall c hc)])
      have heq : r.data = ('@' :: scope) ++ '/' :: nm := by rw [hl]; rfl
      rw [heq]
      show splitP (fun c => decide (c = '/')) (('@' :: scope) ++ '/' :: nm) = _
      rw [splitP_append_sep _ _ _ '/' hx (by decide), hy]
    have hpartsS : splitS r '/' = [⟨'@' :: scope⟩, ⟨nm⟩] := by
      unfold splitS
      rw [hparts]
      rfl
    have hstr : ((⟨'@' :: scope⟩ : String) ++ "/" ++ (⟨nm⟩ : String)) = r := by
      apply String.ext
      rw [String.data_append, String.data_append]
      show ('@' :: scope) ++ ['/'] ++ nm = r.data
      rw [hl]
      simp
    have hred : stepTwo r = stepTwoCore r := by
      unfold stepTwo
      rw [hc2]
    rw [hred]
    unfold stepTwoCore
    simp only [hdotS, hslashS, halias, Bool.false_eq_true, if_false,
      Bool.false_and, hat, if_true, hpartsS]
    show normalizePackageName (some ((⟨'@' :: scope⟩ : String) ++ "/" ++ ⟨nm⟩)) = some r
    rw [hstr]
    exact hnorm
  · -- simple name: a single segment
    obtain ⟨hne, hallr, hhead⟩ := simpleNameL_parts r.data hsim
    have hat : startsS r "@" = false :=
      startsL_false_head '@' [] r.data hne (nameChar1_ne_at _ hhead)
    have hparts : splitC '/' r.data = [r.data] :=
      splitP_no_sep _ r.data (fun c hc => by
        simp [nameCharR_ne_slash c (hallr c hc)])
    have hpartsS : splitS r '/' = [r] := by
      unfold splitS
      rw [hparts]
      rfl
    have hred : stepTwo r = stepTwoCore r := by
      unfold stepTwo
      rw [hc2]
    rw [hred]
    unfold stepTwoCore
    simp only [hdotS, hslashS, halias, Bool.false_eq_true, if_false,
      Bool.false_and, hat, hpartsS]
    show normalizePackageName (some r) = some r
    exact hnorm

theorem extract_clean_id (r : String) (hv : validNameL r.data = true)
    (hb : r ∉ NODE_BUILTINS) (ht : r ≠ "~") : extract r = some r := by
  have hnnil := validNameL_ne_nil r.data hv
  have h0 : r ≠ "" := fun he => hnnil (by rw [he])
  have htrim : trimS r = r := trimS_valid r hv
  have hsq : stripQueryAndHash r = r := stripQueryAndHash_valid r hv
  have halias : isAliasPath r = false := isAliasPath_valid r hv ht
  have hurl := tryParseUrl_valid r hv
  have hcdn : isCdnHost "example.com" = false := by decide
  have hregex := regexProtoSlashes_valid r hv
  have hstep := stepTwo_valid_id r hv hb ht
  unfold extract
  rw [htrim, if_neg h0, hsq]
  unfold extractCleaned
  rw [halias, hurl]
  simp only [Bool.false_eq_true, if_false, hcdn, hregex, hstep]

/- ## Every extraction result is a grammar-valid non-builtin name -/

theorem normalizeTail_sound (x : Option String) (r : String)
    (h : (match x with
          | none => none
          | some normalized =>
            if normalized ∈ NODE_BUILTINS then none
            else if !validNameL normalized.data then none
            else some normalized) = some r) :
    validNameL r.data = true ∧ r ∉ NODE_BUILTINS := by
  match x with
  | none => simp at h
  | some n =>
    replace h : (if n ∈ NODE_BUILTINS then none
        else if (!validNameL n.data) = true then none else some n) = some r := h
    by_cases h1 : n ∈ NODE_BUILTINS
    · rw [if_pos h1] at h; simp at h
    · rw [if_neg h1] at h
      by_cases h2 : validNameL n.data = true
      · rw [h2] at h
        simp only [Bool.not_true, Bool.false_eq_true, if_false, Option.some.injEq] at h
        subst h
        exact ⟨h2, h1⟩
      · have h3 : validNameL n.data = false := by
          cases hx : validNameL n.data
          · rfl
          · exact absurd hx h2
        rw [h3] at h
        simp at h

theorem normalizePackageNameS_sound (p r : String)
    (h : normalizePackageNameS p = some r) :
    validNameL r.data = true ∧ r ∉ NODE_BUILTINS := by
  unfold normalizePackageNameS at h
  by_cases hp : p = ""
  · rw [if_pos hp] at h; simp at h
  · rw [if_neg hp] at h
    exact normalizeTail_sound _ r h

theorem normalizePackageName_sound (p? : Option String) (r : String)
    (h : normalizePackageName p? = some r) :
    validNameL r.data = true ∧ r ∉ NODE_BUILTINS := by
  match p? with
  | none => simp [normalizePackageName] at h
  | some p => exact normalizePackageNameS_sound p r h

theorem cdnPick_sound (host : String) (pathParts : List String) (r : String)
    (h : cdnPick host pathParts = some r) :
    validNameL r.data = true ∧ r ∉ NODE_BUILTINS := by
  unfold cdnPick at h
  split at h
  · exact normalizePackageName_sound _ r h
  · split at h
    · simp at h
    · exact normalizePackageName_sound _ r h

theorem cdnExtract_sound (u : UrlView) (r : String)
    (h : cdnExtract u = some r) :
    validNameL r.data = true ∧ r ∉ NODE_BUILTINS := by
  unfold cdnExtract at h
  exact cdnPick_sound _ _ r h

theorem stepTwoCore_sound (c2 : String) (r : String) (h : stepTwoCore c2 = some r) :
    validNameL r.data = true ∧ r ∉ NODE_BUILTINS := by
  unfold stepTwoCore at h
  split at h
  · simp at h
  · split at h
    · simp at h
    · split at h
      · simp at h
      · exact normalizePackageName_sound _ r h

theorem stepTwo_sound (c : String) (r : String) (h : stepTwo c = some r) :
    validNameL r.data = true ∧ r ∉ NODE_BUILTINS := by
  unfold stepTwo at h
  exact stepTwoCore_sound _ r h

theorem extractCleaned_sound (c : String) (r : String)
    (h : extractCleaned c = some r) :
    validNameL r.data = true ∧ r ∉ NODE_BUILTINS := by
  unfold extractCleaned at h
  split at h
  · simp at h
  · split at h
    · split at h
      · exact cdnExtract_sound _ r h
      · split at h
        · simp at h
        · exact stepTwo_sound _ r h
    · exact stepTwo_sound _ r h

theorem extract_sound (s : String) (r : String) (h : extract s = some r) :
    validNameL r.data = true ∧ r ∉ NODE_BUILTINS := by
  unfold extract at h
  split at h
  · simp at h
  · exact extractCleaned_sound _ r h

/- ## Rate limiter: sliding-window admission bound -/

theorem rlAdmits_mem (m : Nat) (W : Int) (reqs ts : List Int) (x : Int)
    (h : x ∈ rlAdmits m W reqs ts) : x ∈ ts := by
  induction ts generalizing reqs with
  | nil => simp [rlAdmits] at h
  | cons t rest ih =>
    simp only [rlAdmits] at h
    split at h
    · exact List.mem_cons_of_mem t (ih _ h)
    · rcases List.mem_cons.mp h with h1 | h2
      · exact h1 ▸ List.mem_cons_self t rest
      · exact List.mem_cons_of_mem t (ih _ h2)

theorem countP_filter_eq_of (p q : Int → Bool) (l : List Int)
    (hcond : ∀ r ∈ l, p r = true → q r = true) :
    (l.filter q).countP p = l.countP p := by
  induction l with
  | nil => rfl
  | cons a l ih =>
    have ih2 := ih (fun r hr hp => hcond r (by simp [hr]) hp)
    cases hq : q a
    · have hp : p a = false := by
        cases hp : p a
        · rfl
        · exact absurd (hcond a (by simp) hp) (by simp [hq])
      simp [List.filter_cons, hq, List.countP_cons, hp, ih2]
    · simp [List.filter_cons, hq, List.countP_cons, ih2]

theorem rlAdmits_windows (m : Nat) (W a : Int) :
    ∀ (ts reqs : List Int),
      List.Pairwise (· ≤ ·) ts →
      (∀ r ∈ reqs, ∀ t ∈ ts, r ≤ t) →
      reqs.length ≤ m →
      (rlAdmits m W reqs ts).countP (inWindow a W) +
        reqs.countP (fun r => decide (a < r)) ≤ m := by
  intro ts
  induction ts with
  | nil =>
    intro reqs _ _ hlen
    simp only [rlAdmits, List.countP_nil, Nat.zero_add]
    exact le_trans (List.countP_le_length _) hlen
  | cons t rest ih =>
    intro reqs hpw hle hlen
    obtain ⟨hhead, hpw2⟩ := List.pairwise_cons.mp hpw
    have hlef : ∀ r ∈ reqs.filter (fun x => decide (t - x < W)), ∀ u ∈ rest, r ≤ u :=
      fun r hr u hu => hle r (List.mem_of_mem_filter hr) u (List.mem_cons_of_mem t hu)
    have hlenf : (reqs.filter (fun x => decide (t - x < W))).length ≤ m :=
      le_trans (List.length_filter_le _ _) hlen
    simp only [rlAdmits]
    by_cases hdrop : ∀ r ∈ reqs, a < r → t - r < W
    · -- no above-a timestamp was dropped by the filter
      have hfeq : (reqs.filter (fun x => decide (t - x < W))).countP
          (fun r => decide (a < r)) = reqs.countP (fun r => decide (a < r)) := by
        refine countP_filter_eq_of _ _ reqs (fun r hr hp => ?_)
        simp only [decide_eq_true_eq] at hp ⊢
        exact hdrop r hr hp
      split
      · -- at capacity: the attempt sleeps, no admission
        have := ih (reqs.filter (fun x => decide (t - x < W))) hpw2 hlef hlenf
        omega
      · -- below capacity: t is admitted
        rename_i hcap
        have hlef2 : ∀ r ∈ reqs.filter (fun x => decide (t - x < W)) ++ [t],
            ∀ u ∈ rest, r ≤ u := by
          intro r hr u hu
          rcases List.mem_append.mp hr with h1 | h2
          · exact hlef r h1 u hu
          · have : r = t := by simpa using h2
            exact this ▸ hhead u hu
        have hlenf2 : (reqs.filter (fun x => decide (t - x < W)) ++ [t]).length ≤ m := by
          simp only [List.length_append, List.length_cons, List.length_nil]
          omega
        have hrec := ih (reqs.filter (fun x => decide (t - x < W)) ++ [t]) hpw2 hlef2 hlenf2
        rw [List.countP_append] at hrec
        simp only [List.countP_cons, List.countP_nil] at hrec
        rw [List.countP_cons]
        by_cases hat : a < t
        · have hta : decide (a < t) = true := by simpa using hat
          rw [hfeq, hta, if_pos rfl] at hrec
          by_cases htw : t ≤ a + W
          · have hin : inWindow a W t = true := by simp [inWindow, hat, htw]
            rw [hin, if_pos rfl]
            omega
          · have hin : inWindow a W t = false := by simp [inWindow, htw]
            rw [hin]
            simp only [Bool.false_eq_true, if_false]
            omega
        · have hta : decide (a < t) = false := by simpa using hat
          have hin : inWindow a W t = false := by simp [inWindow, hat]
          rw [hfeq, hta] at hrec
          simp only [Bool.false_eq_true, if_false] at hrec
          rw [hin]
          simp only [Bool.false_eq_true, if_false]
          omega
    · -- some timestamp above a aged out: the whole window lies in the past
      push_neg at hdrop
      obtain ⟨r0, hr0mem, hr0a, hr0old⟩ := hdrop
      have hbig : a + W < t := by omega
      have hzero : ∀ (reqs2 : List Int),
          (rlAdmits m W reqs2 rest).countP (inWindow a W) = 0 := by
        intro reqs2
        rw [List.countP_eq_zero]
        intro x hx
        have hxrest : x ∈ rest := rlAdmits_mem m W reqs2 rest x hx
        have htx : t ≤ x := hhead x hxrest
        simp only [inWindow, Bool.and_eq_true, decide_eq_true_eq]
        omega
      split
      · rw [hzero]
        have := le_trans (List.countP_le_length (fun r => decide (a < r))) hlen
        omega
      · rw [List.countP_cons, hzero]
        have hwt : inWindow a W t = false := by
          simp only [inWindow, Bool.and_eq_false_iff, decide_eq_false_iff_not]
          right
          omega
        rw [hwt]
        simp only [Bool.false_eq_true, if_false]
        have := le_trans (List.countP_le_length (fun r => decide (a < r))) hlen
        omega

/- ## Exposed-file probe lemmas -/

theorem checkFileResp_path (root path : String) (r : HttpResp) (f : ExposedFile)
    (h : checkFileResp root path r = some f) : f.path = path := by
  unfold checkFileResp at h
  split at h
  · split at h
    · split at h
      · simp at h
      · split at h
        · injection h with h1
          rw [← h1]
        · simp at h
    · simp at h
  · simp at h

theorem checkFile_path (env : ProbeEnv) (path : String) (f : ExposedFile)
    (h : checkFile env path = some f) : f.path = path := by
  unfold checkFile at h
  split at h
  · simp at h
  · exact checkFileResp_path env.rootContent path _ f h

theorem checkFileResp_soft404_none (root path : String) (r : HttpResp)
    (hroot : root ≠ "")
    (hsoft : r.body = jsSliceTo root r.body.data.length ∨
      containsS r.body "<!DOCTYPE html>" = true)
    (hhtml : endsS path ".html" = false) :
    checkFileResp root path r = none := by
  unfold checkFileResp
  by_cases hH : r.okHead = true
  · rw [if_pos hH]
    by_cases hG : r.okGet = true
    · rw [if_pos hG]
      have hcond : (decide (root ≠ "") &&
          (decide (r.body = jsSliceTo root r.body.data.length) ||
            containsS r.body "<!DOCTYPE html>") &&
          !endsS path ".html") = true := by
        rw [hhtml]
        have hr : decide (root ≠ "") = true := decide_eq_true hroot
        have hmid : (decide (r.body = jsSliceTo root r.body.data.length) ||
            containsS r.body "<!DOCTYPE html>") = true := by
          rcases hsoft with h1 | h1
          · rw [decide_eq_true h1]
            exact Bool.true_or _
          · rw [h1]
            exact Bool.or_true _
        rw [hr, hmid]
        rfl
      rw [hcond, if_pos rfl]
    · rw [if_neg hG]
  · rw [if_neg hH]

/- ## Package record lemmas -/

theorem recKeys_addSource (rec : PackageRecord) (n src : String) :
    recKeys (recAddSource rec n src) = recKeys rec := by
  induction rec with
  | nil => rfl
  | cons e l ih =>
    unfold recAddSource at ih ⊢
    unfold recKeys at ih ⊢
    simp only [List.map_cons]
    by_cases he : e.1 = n
    · rw [if_pos he]
      simp only [List.cons.injEq]
      exact ⟨by trivial, ih⟩
    · rw [if_neg he]
      simp only [List.cons.injEq]
      exact ⟨by trivial, ih⟩

theorem addPackage_keys (rec : PackageRecord) (name : Option String) (src k : String)
    (h : k ∈ recKeys (addPackage rec name src)) :
    k ∈ recKeys rec ∨
      ∃ n, name = some n ∧ k = n ∧ n ≠ "" ∧ isInternalModule n = false := by
  match name with
  | none => exact Or.inl h
  | some n =>
    unfold addPackage at h
    replace h : k ∈ recKeys (if n = "" then rec
        else if isInternalModule n = true then rec
        else if recHas rec n = true then recAddSource rec n src
        else rec ++ [(n, [src])]) := h
    by_cases h1 : n = ""
    · rw [if_pos h1] at h
      exact Or.inl h
    · rw [if_neg h1] at h
      by_cases h2 : isInternalModule n = true
      · rw [h2, if_pos rfl] at h
        exact Or.inl h
      · have h2f : isInternalModule n = false := by
          cases hx : isInternalModule n
          · rfl
          · exact absurd hx h2
        rw [h2f] at h
        simp only [Bool.false_eq_true, if_false] at h
        by_cases h3 : recHas rec n = true
        · rw [h3, if_pos rfl, recKeys_addSource] at h
          exact Or.inl h
        · have h3f : recHas rec n = false := by
            cases hx : recHas rec n
            · rfl
            · exact absurd hx h3
          rw [h3f] at h
          simp only [Bool.false_eq_true, if_false] at h
          unfold recKeys at h
          rw [List.map_append] at h
          rcases List.mem_append.mp h with h4 | h4
          · exact Or.inl h4
          · refine Or.inr ⟨n, rfl, ?_, h1, h2f⟩
            simpa using h4

/- ## Claims -/

/-- C1, counterexample: the claim that extract("libs/my-lib@2.0.0") returns
"libs" is false on the code — the extractor returns null for this input. -/
theorem extract_libs_cex : extract "libs/my-lib@2.0.0" ≠ some "libs" := by decide

/-- C1 (amended): extract("libs/my-lib@2.0.0") returns null, because the
first segment libs is one of the configured internal alias roots and the
input is rejected by isAliasPath before any sub-path handling; discarding the
sub-path after the first segment does happen for non-alias roots, as in
extract("lodash/fp") = "lodash". -/
theorem extract_libs_alias_rejected :
    extract "libs/my-lib@2.0.0" = none ∧
    isAliasPath "libs/my-lib@2.0.0" = true ∧
    extract "lodash/fp" = some "lodash" := by decide

/-- C2, code evaluation at the failing input: for a package with fewer than
100 weekly downloads, no repository metadata, and a typosquat-style name, the
low-downloads condition sets the level to HIGH but the later suspicious-name
assignment overwrites it with MEDIUM; both reasons are kept. The claim (and
the spec) say the overall level is the highest triggered tier, HIGH. -/
theorem assessRisk_overwrites_high :
    assessRisk { name := "lo-pkg", repository := false } 0 =
      { suspicious := true, riskLevel := RiskLevel.MEDIUM,
        riskReasons := ["Low downloads + No Repo", "Suspicious name pattern"] } := by
  decide

/-- C3 (amended): in an exposed-file probe run whose site-root baseline body
is non-empty, any probed path whose response body equals the baseline body or
is a prefix of it, or contains an HTML doctype, and which does not end in
.html, never appears in the returned exposedFiles list. (When the baseline
body is empty the source skips this soft-404 filter entirely.) -/
theorem checkExposedFiles_soft404_excluded (env : ProbeEnv) (path : String)
    (r : HttpResp)
    (hroot : env.rootContent ≠ "")
    (hresp : env.resp path = some r)
    (hsoft : r.body = jsSliceTo env.rootContent r.body.data.length ∨
      containsS r.body "<!DOCTYPE html>" = true)
    (hhtml : endsS path ".html" = false) :
    path ∉ (checkExposedFiles env).map (fun f => f.path) := by
  intro hmem
  obtain ⟨f, hf, hfp⟩ := List.mem_map.mp hmem
  obtain ⟨p, hpmem, hchk⟩ := List.mem_filterMap.mp hf
  have hp : f.path = p := checkFile_path env p f hchk
  have hpp : p = path := by rw [← hfp, hp]
  subst hpp
  have hnone : checkFile env p = none := by
    unfold checkFile
    rw [hresp]
    exact checkFileResp_soft404_none env.rootContent p r hroot hsoft hhtml
  rw [hnone] at hchk
  exact Option.noConfusion hchk

/-- C3 witness: a concrete run with a doctype homepage baseline in which the
dotenv probe answers with a doctype body; the path is excluded. -/
theorem checkExposedFiles_soft404_excluded_witness :
    "/.env" ∉ (checkExposedFiles doctypeRespEnv).map (fun f => f.path) :=
  checkExposedFiles_soft404_excluded doctypeRespEnv "/.env" doctypeResp
    (by decide) (by decide) (Or.inr (by decide)) (by decide)

/-- C3, counterexample to the claim as stated: when the root fetch produced
no baseline body, the soft-404 filter is skipped, and a dotenv probe whose
body contains an HTML doctype (but also matches the dotenv content signature)
is reported even though the path does not end in .html. -/
theorem checkExposedFiles_empty_baseline_cex :
    emptyRootEnv.rootContent = "" ∧
    containsS "A=<!DOCTYPE html>" "<!DOCTYPE html>" = true ∧
    endsS "/.env" ".html" = false ∧
    "/.env" ∈ (checkExposedFiles emptyRootEnv).map (fun f => f.path) := by decide

/-- C4: a registry lookup that answers HTTP 404 for a package name yields a
finding with isUnregistered true, riskLevel CRITICAL, and the
dependency-confusion reason attached. -/
theorem handleAnalyzePackage_404_critical (env : RegistryEnv) (name : String)
    (sources : List String) (h : env.status name = 404) :
    (handleAnalyzePackage env name sources).isUnregistered = true ∧
    (handleAnalyzePackage env name sources).riskLevel = RiskLevel.CRITICAL ∧
    "Package not found on npmjs.org - potential dependency confusion" ∈
      (handleAnalyzePackage env name sources).riskReasons := by
  simp [handleAnalyzePackage, h]

/-- C4 witness: the lookup of internal-tool-x against a registry that answers
404 for every name. -/
theorem handleAnalyzePackage_404_critical_witness :
    always404Env.status "internal-tool-x" = 404 ∧
    (handleAnalyzePackage always404Env "internal-tool-x" []).isUnregistered = true ∧
    (handleAnalyzePackage always404Env "internal-tool-x" []).riskLevel =
      RiskLevel.CRITICAL ∧
    "Package not found on npmjs.org - potential dependency confusion" ∈
      (handleAnalyzePackage always404Env "internal-tool-x" []).riskReasons :=
  ⟨rfl, handleAnalyzePackage_404_critical always404Env "internal-tool-x" [] rfl⟩

/-- C5 (amended): extract is the identity on every string that matches the
canonical package-name grammar, except the Node built-in module names (which
normalizePackageName rejects) and the bare tilde (which isAliasPath rejects). -/
theorem extract_identity_on_valid_names (n : String) (h1 : validName n = true)
    (h2 : n ∉ NODE_BUILTINS) (h3 : n ≠ "~") : extract n = some n :=
  extract_clean_id n h1 h2 h3

/-- C5 witness: lodash is grammar-valid, not a built-in, not the tilde, and
extract maps it to itself. -/
theorem extract_identity_on_valid_names_witness :
    validName "lodash" = true ∧ "lodash" ∉ NODE_BUILTINS ∧
    ("lodash" : String) ≠ "~" ∧ extract "lodash" = some "lodash" :=
  ⟨by decide, by decide, by decide,
    extract_identity_on_valid_names "lodash" (by decide) (by decide) (by decide)⟩

/-- C5, counterexample to the claim as stated: fs matches the canonical
grammar yet extract returns null for it (Node built-in), not fs itself. -/
theorem extract_builtin_cex : validName "fs" = true ∧ extract "fs" = none := by decide

/-- C6: for a RateLimiter with capacity maxRequests and window timeWindow,
over any chronological trace of executions of waitForSlot's atomic section
(which covers every interleaving of any number of callers, since that section
contains no await), no half-open window of length timeWindow contains more
than maxRequests admissions; a caller finding the window full is put to sleep
and retried (a later attempt in the trace), never rejected. -/
theorem rateLimiter_window_bound (maxRequests : Nat) (timeWindow : Int)
    (ts : List Int) (hchron : List.Chain' (· ≤ ·) ts) (a : Int) :
    (rlAdmits maxRequests timeWindow [] ts).countP (inWindow a timeWindow) ≤
      maxRequests := by
  have hpw : List.Pairwise (· ≤ ·) ts := List.chain'_iff_pairwise.mp hchron
  have h := rlAdmits_windows maxRequests timeWindow a ts [] hpw
    (by intro r hr; simp at hr) (by simp)
  simpa using h

/-- C6 witness: four attempts at times 0,1,2,3 against capacity 2 and window
10 admit at most 2 in the window anchored at 0. -/
theorem rateLimiter_window_bound_witness :
    List.Chain' (· ≤ ·) ([0, 1, 2, 3] : List Int) ∧
    (rlAdmits 2 10 [] [0, 1, 2, 3]).countP (inWindow 0 10) ≤ 2 :=
  ⟨by simp [List.chain'_cons], rateLimiter_window_bound 2 10 [0, 1, 2, 3]
    (by simp [List.chain'_cons]) 0⟩

/-- C7 (amended): every key ever recorded into the scanner's PackageRecord by
addPackage is never a recognized internal sub-module (addPackage filters
those), and every key that came out of PackageNameExtractor.extract
additionally matches the canonical grammar and is not a Node built-in. Keys
ingested from /package.json dependency keys bypass extract and are not
validated against the grammar. -/
theorem addPackage_record_invariant :
    (∀ (rec : PackageRecord) (name : Option String) (src k : String),
        k ∈ recKeys (addPackage rec name src) →
        k ∈ recKeys rec ∨ isInternalModule k = false) ∧
    (∀ (rec : PackageRecord) (s src k : String),
        k ∈ recKeys (addPackage rec (extract s) src) →
        k ∈ recKeys rec ∨
          (validName k = true ∧ k ∉ NODE_BUILTINS ∧ isInternalModule k = false)) := by
  constructor
  · intro rec name src k h
    rcases addPackage_keys rec name src k h with h1 | ⟨n, _, hk, _, hint⟩
    · exact Or.inl h1
    · exact Or.inr (hk ▸ hint)
  · intro rec s src k h
    rcases addPackage_keys rec (extract s) src k h with h1 | ⟨n, hn, hk, _, hint⟩
    · exact Or.inl h1
    · obtain ⟨hv, hb⟩ := extract_sound s n hn
      subst hk
      exact Or.inr ⟨hv, hb, hint⟩

/-- C7 witness: recording extract("lodash/fp") into an empty record yields the
key lodash, which is grammar-valid, not a built-in and not internal. -/
theorem addPackage_record_invariant_witness :
    "lodash" ∈ recKeys (addPackage [] (extract "lodash/fp") "Inline Script") ∧
    validName "lodash" = true ∧ "lodash" ∉ NODE_BUILTINS ∧
    isInternalModule "lodash" = false := by
  refine ⟨by decide, ?_⟩
  rcases addPackage_record_invariant.2 [] "lodash/fp" "Inline Script" "lodash"
      (by decide) with h1 | h2
  · exact absurd h1 (by decide)
  · exact h2

/-- C7, counterexample to the claim as stated: a /package.json dependency key
that violates the canonical grammar is recorded as a PackageRecord key
unchanged, because parsePackageJson feeds the keys to addPackage without
running them through extract. -/
theorem parsePackageJson_invalid_key_cex :
    "Invalid Name!" ∈ recKeys (parsePackageJson [] ["Invalid Name!"] []) ∧
    validName "Invalid Name!" = false := by decide

/-- C8 (amended): extraction is idempotent on every input whose extraction
result is not the bare tilde: if extract(s) is a name r other than the tilde,
then extract(r) = r. (The tilde is grammar-valid, so normalizePackageName can
produce it, yet isAliasPath rejects it when it is fed back in.) -/
theorem extract_idempotent (s r : String) (h : extract s = some r)
    (hr : r ≠ "~") : extract r = some r := by
  obtain ⟨hv, hb⟩ := extract_sound s r h
  exact extract_clean_id r hv hb hr

/-- C8 witness: extract("lodash/fp") = "lodash" and extracting the result
again returns it unchanged. -/
theorem extract_idempotent_witness :
    extract "lodash/fp" = some "lodash" ∧ extract "lodash" = some "lodash" :=
  ⟨by decide, extract_idempotent "lodash/fp" "lodash" (by decide) (by decide)⟩

/-- C8, counterexample to the claim as stated: extract("~@1") is the bare
tilde (the at-suffix is stripped and the tilde passes the grammar), but
extracting that result again yields null because isAliasPath rejects the
bare tilde, so extract(extract("~@1")) differs from extract("~@1"). -/
theorem extract_idempotent_cex :
    extract "~@1" = some "~" ∧ extract "~" = none := by decide

/-- C9: extract is total over arbitrary JavaScript values: every input,
including null, undefined and other non-strings (rejected by the typeof
guard) and strings that do not parse as URLs (the URL-constructor failure is
the none branch of tryParseUrl, which falls through to the standard cleaning
exactly like the source's catch), produces either null or a string; the
embedding has no error outcome. -/
theorem extractVal_total (v : JSVal) :
    extractVal v = none ∨ ∃ s, extractVal v = some s := by
  cases h : extractVal v
  · exact Or.inl rfl
  · exact Or.inr ⟨_, rfl⟩

/-- C10: addPackage called with null/undefined (none) or the empty string
leaves the packages map unchanged, so scanContent may feed extract's null
results straight into addPackage without creating a null-keyed entry. -/
theorem addPackage_falsy_noop (rec : PackageRecord) (src : String) :
    addPackage rec none src = rec ∧ addPackage rec (some "") src = rec := by
  constructor
  · rfl
  · simp [addPackage]

end NpmScan
